import Mathlib

/-!
Verification of the Payment Reconciliation Engine core against its
natural-language specification.

The Go source is shallowly embedded:
  - `float64` scores become `ℚ` (the score arithmetic is exact decimal
    arithmetic plus `math.Round`, which on the non-negative scores used
    here agrees with `round` on `ℚ`);
  - `time.Time` dates become `ℤ` day numbers (all dates in the pipeline
    are midnight UTC calendar dates, so `t1.Sub(t2).Hours()/24` truncated
    is exactly the day-number difference); `daysFromCivil` converts a
    calendar date to its day number;
  - Go strings are ASCII in every code path modelled here, so `String`
    with per-`Char` operations matches byte-level Go string operations.

Sections follow the source files:
  matcher.go (processor package), invoice_cache.go, the CSV processor
  (ProcessJob / processCSVFromContent / parseRow / flushBatch), and the
  job queue worker (claimJob).
-/

set_option allowUnsafeReducibility true
set_option maxRecDepth 100000

attribute [semireducible] Rat.add Rat.sub Rat.mul Rat.div Rat.inv

namespace Recon

/-- ASCII uppercase of a string, embedding `strings.ToUpper` (inputs here
are ASCII). -/
def toUpperStr (s : String) : String :=
  String.mk (s.data.map Char.toUpper)

/-- ASCII lowercase of a string, embedding `strings.ToLower`. -/
def toLowerStr (s : String) : String :=
  String.mk (s.data.map Char.toLower)

/-- Embedding of `strings.TrimSpace`: drop whitespace from both ends. -/
def trimGo (s : String) : String :=
  String.mk (((s.data.dropWhile Char.isWhitespace).reverse.dropWhile
    Char.isWhitespace).reverse)

/-- Accumulator worker for `fieldsGo`: splits a character list into
maximal whitespace-free words. -/
def wordsAux : List Char → List Char → List String
  | [], acc => if acc.isEmpty then [] else [String.mk acc.reverse]
  | c :: cs, acc =>
    if c.isWhitespace then
      if acc.isEmpty then wordsAux cs []
      else String.mk acc.reverse :: wordsAux cs []
    else wordsAux cs (c :: acc)

/-- Embedding of `strings.Fields`: whitespace-separated words, empties
dropped. -/
def fieldsGo (s : String) : List String :=
  wordsAux s.data []

/-- Join a word list with single spaces, embedding
`strings.Join(words, " ")`. -/
def joinWords : List String → String
  | [] => ""
  | [w] => w
  | w :: ws => w ++ " " ++ joinWords ws

/-- `normalizeName` from invoice_cache.go: uppercase, replace comma,
period and hyphen by spaces, collapse whitespace runs. -/
def normalizeName (name : String) : String :=
  let repl := (name.data.map Char.toUpper).map
    (fun c => if c = ',' ∨ c = '.' ∨ c = '-' then ' ' else c)
  joinWords (wordsAux repl [])

/-- The fixed noise-token list of `extractNameFromDescription` in
matcher.go (36 tokens; note `PURCHASE` is not among them). -/
def noiseTokens : List String :=
  ["CHK", "DEP", "PMT", "PAYMENT", "ONLINE", "TRANSFER", "ACH",
   "DEPOSIT", "WIRE", "CHECK", "REF", "REFERENCE", "MISC",
   "DEBIT", "CREDIT", "TXN", "TRANSACTION", "FEE", "CHARGE",
   "FROM", "TO", "VIA", "ATM", "POS", "MOBILE", "WEB",
   "EXTERNAL", "INTERNAL", "INCOMING", "OUTGOING", "COUNTER",
   "VENDOR", "REBATE", "UNKNOWN", "BANK", "CASH"]

/-- The word filter loop of `extractNameFromDescription`: drop noise
tokens; keep words of length at least 2; keep a single-letter word only
when some word was already kept (`len(filteredWords) > 0`). The
accumulator holds kept words in reverse. -/
def filterNoiseWords : List String → List String → List String
  | [], acc => acc.reverse
  | w :: ws, acc =>
    if noiseTokens.contains w then filterNoiseWords ws acc
    else if 2 ≤ w.length then filterNoiseWords ws (w :: acc)
    else if w.length = 1 ∧ acc ≠ [] then filterNoiseWords ws (w :: acc)
    else filterNoiseWords ws acc

/-- `extractNameFromDescription` from matcher.go: uppercase, keep only
letters and spaces, split into words, filter noise, join, normalize. -/
def extractNameFromDescription (desc : String) : String :=
  let up := desc.data.map Char.toUpper
  let cleaned := up.filter (fun c => ('A' ≤ c ∧ c ≤ 'Z') ∨ c = ' ')
  let words := wordsAux cleaned []
  normalizeName (joinWords (filterNoiseWords words []))

/-- `calculateDateAdjustment` from matcher.go. -/
def calculateDateAdjustment (daysDelta : ℤ) : ℚ :=
  if daysDelta < 0 then 5
  else if daysDelta ≤ 7 then 2
  else if daysDelta ≤ 30 then 0
  else -10

/-- Write one position of a boolean list (used for the `s2Matches`
array of `jaroWinkler`). -/
def listSet : List Bool → Nat → Bool → List Bool
  | [], _, _ => []
  | _ :: xs, 0, v => v :: xs
  | x :: xs, n + 1, v => x :: listSet xs n v

/-- Inner loop of the Jaro match phase: first index `j` in the window
(scanning `count` positions from `start`) with `s2` unmatched at `j` and
characters equal. -/
def jwFindJ (c : Char) (r2 : List Char) (s2M : List Bool) :
    Nat → Nat → Option Nat
  | _, 0 => none
  | start, count + 1 =>
    if s2M.getD start false = false ∧ r2.getD start ' ' = c then some start
    else jwFindJ c r2 s2M (start + 1) count

/-- Outer loop of the Jaro match phase over `r1` (with running index
`i`): returns the matched characters of `r1` in order and the final
`s2Matches` flags. -/
def jwMatchAux (r2 : List Char) (mw : Nat) :
    List Char → Nat → List Bool → (List Char × List Bool)
  | [], _, s2M => ([], s2M)
  | c :: cs, i, s2M =>
    let start := i - mw
    let stop := min r2.length (i + mw + 1)
    match jwFindJ c r2 s2M start (stop - start) with
    | some j =>
      let rest := jwMatchAux r2 mw cs (i + 1) (listSet s2M j true)
      (c :: rest.1, rest.2)
    | none => jwMatchAux r2 mw cs (i + 1) s2M

/-- Common-prefix length of two character lists, capped by the fuel
argument (the Winkler bonus caps it at 4). -/
def prefLenAux : List Char → List Char → Nat → Nat
  | a :: as, b :: bs, n + 1 => if a = b then 1 + prefLenAux as bs n else 0
  | _, _, _ => 0

/-- Core of `jaroWinkler` for unequal non-empty strings (match window,
matches, transpositions, Winkler prefix bonus), exactly as in
matcher.go. `transpositions / 2` is Go integer division. -/
def jwCore (r1 r2 : List Char) : ℚ :=
  let len1 := r1.length
  let len2 := r2.length
  let mw0 := max len1 len2 / 2 - 1
  let mw := if mw0 < 1 then 1 else mw0
  let res := jwMatchAux r2 mw r1 0 (List.replicate len2 false)
  let mCount := res.1.length
  if mCount = 0 then 0
  else
    let m2 := (r2.zip res.2).filterMap
      (fun p => if p.2 then some p.1 else none)
    let transpositions :=
      ((res.1.zip m2).filter (fun p => p.1 ≠ p.2)).length
    let m : ℚ := (mCount : ℚ)
    let jaro := (m / (len1 : ℚ) + m / (len2 : ℚ) +
      ((m - ((transpositions / 2 : ℕ) : ℚ)) / m)) / 3
    let pl := prefLenAux r1 r2 4
    let winkler := jaro + (1 / 10 : ℚ) * (pl : ℚ) * (1 - jaro)
    winkler * 100

/-- `jaroWinkler` from matcher.go (the current revision with proper
match window and transposition counting), scaled to 0..100. -/
def jaroWinkler (s1 s2 : String) : ℚ :=
  let u1 := toUpperStr s1
  let u2 := toUpperStr s2
  if u1 = u2 then 100
  else if u1.length = 0 ∨ u2.length = 0 then 0
  else jwCore u1.data u2.data

/-- `InvoiceCandidate` from invoice_cache.go; `DueDate` is a day
number. -/
structure InvoiceCandidate where
  ID : String
  InvoiceNumber : String
  Amount : String
  DueDate : ℤ
  CustomerName : String
  NormalizedName : String
  Status : String
deriving DecidableEq

/-- `scoredCandidate` from matcher.go; `finalScoreBP` is the integer
basis-point form of `finalScore`. -/
structure ScoredCandidate where
  candidate : InvoiceCandidate
  nameScore : ℚ
  dateDelta : ℤ
  dateAdjustment : ℚ
  ambiguityPenalty : ℚ
  finalScore : ℚ
  finalScoreBP : ℤ
deriving DecidableEq

/-- `MatchResult` from matcher.go. The `MatchDetails` dynamic map is a
display-only payload and is not modelled. -/
structure MatchResult where
  InvoiceID : Option String
  Confidence : ℚ
  Status : String
deriving DecidableEq

/-- Embedding of `strings.HasPrefix` (byte prefix equals character
prefix on the ASCII strings used here). -/
def hasPrefixGo (s p : String) : Bool :=
  p.data.isPrefixOf s.data

/-- Initials of a name: first character of each whitespace field, as
built in `MatchTransaction`. -/
def initialsOf (s : String) : String :=
  String.mk ((fieldsGo s).filterMap (fun w => w.data.head?))

/-- The weak-name test of `MatchTransaction`:
`len(extractedName) < 3 || strings.TrimSpace(extractedName) == ""`. -/
def nameTooWeakB (extractedName : String) : Bool :=
  decide (extractedName.length < 3) || decide (trimGo extractedName = "")

/-- Round to two decimals, embedding `math.Round(x*100)/100` (the
clamped score is non-negative, where Go round-half-away-from-zero and
`round` agree). -/
def round2 (q : ℚ) : ℚ :=
  ((round (q * 100) : ℤ) : ℚ) / 100

/-- Clamp to the score range, embedding
`math.Max(0, math.Min(100, x))`. -/
def clampScore (q : ℚ) : ℚ :=
  max 0 (min 100 q)

/-- Per-candidate scoring step of `MatchTransaction`: Jaro–Winkler name
score, initials boost, last-name boost, weak-name cap, date adjustment,
ambiguity penalty, clamped and rounded final score with its basis-point
form. -/
def scoreOne (extractedName : String) (extractedInitials : String)
    (nameTooWeak : Bool) (numCandidates : ℕ) (txnDate : ℤ)
    (cand : InvoiceCandidate) : ScoredCandidate :=
  let ns0 := jaroWinkler extractedName cand.NormalizedName
  let ns1 :=
    if 2 ≤ extractedInitials.length then
      let candInitials := initialsOf cand.NormalizedName
      if extractedInitials = candInitials then max ns0 85
      else if 0 < extractedInitials.length ∧ 0 < candInitials.length ∧
          (hasPrefixGo candInitials extractedInitials ∨
           hasPrefixGo extractedInitials candInitials) then
        max ns0 75
      else ns0
    else ns0
  let extractedTokens := fieldsGo extractedName
  let candTokens := fieldsGo cand.NormalizedName
  let ns2 :=
    match extractedTokens.getLast?, candTokens.getLast? with
    | some el, some cl => if 3 ≤ el.length ∧ el = cl then max ns1 80 else ns1
    | _, _ => ns1
  let ns3 := if nameTooWeak then min ns2 50 else ns2
  let dateDelta := txnDate - cand.DueDate
  let dateAdj := calculateDateAdjustment dateDelta
  let ambiguityPenalty : ℚ :=
    if 2 < numCandidates then ((numCandidates : ℚ) - 2) * (3 / 2) else 0
  let fs := round2 (clampScore (ns3 + dateAdj - ambiguityPenalty))
  let bp := round (fs * 100)
  { candidate := cand, nameScore := ns3, dateDelta := dateDelta,
    dateAdjustment := dateAdj, ambiguityPenalty := ambiguityPenalty,
    finalScore := fs, finalScoreBP := bp }

/-- The scoring loop of `MatchTransaction` over all candidates. -/
def scoreCandidates (description : String) (txnDate : ℤ)
    (candidates : List InvoiceCandidate) : List ScoredCandidate :=
  let extractedName := extractNameFromDescription description
  let weak := nameTooWeakB extractedName
  let extractedInitials := initialsOf extractedName
  candidates.map
    (scoreOne extractedName extractedInitials weak candidates.length txnDate)

/-- The strict comparison of the `sort.SliceStable` call in
`MatchTransaction`: higher basis points, then smaller absolute date
delta, then earlier due date, then smaller invoice id. -/
def scoredLess (x y : ScoredCandidate) : Bool :=
  if x.finalScoreBP ≠ y.finalScoreBP then
    decide (y.finalScoreBP < x.finalScoreBP)
  else if x.dateDelta.natAbs ≠ y.dateDelta.natAbs then
    decide (x.dateDelta.natAbs < y.dateDelta.natAbs)
  else if x.candidate.DueDate ≠ y.candidate.DueDate then
    decide (x.candidate.DueDate < y.candidate.DueDate)
  else decide (x.candidate.ID < y.candidate.ID)

/-- Stable insertion into a list sorted by the strict comparison
`less`: the new element goes after every element strictly smaller than
it and before the rest (ties keep earlier elements first, matching
`sort.SliceStable`). -/
def insertStable (less : α → α → Bool) (a : α) : List α → List α
  | [] => [a]
  | b :: bs => if less b a then b :: insertStable less a bs else a :: b :: bs

/-- Stable sort by the strict comparison `less`, embedding
`sort.SliceStable`. -/
def sortStable (less : α → α → Bool) (l : List α) : List α :=
  l.foldr (insertStable less) []

/-- The sorted scored-candidate list of `MatchTransaction`. -/
def sortedScored (description : String) (txnDate : ℤ)
    (candidates : List InvoiceCandidate) : List ScoredCandidate :=
  sortStable scoredLess (scoreCandidates description txnDate candidates)

/-- The status-and-result step of `MatchTransaction` applied to the best
(first sorted) candidate: thresholds 75.0 (auto_matched) and 45.0
(needs_review), invoice id present unless unmatched, confidence always
the best final score. -/
def decideFromBest (best : ScoredCandidate) : MatchResult :=
  let status :=
    if 75 ≤ best.finalScore then "auto_matched"
    else if 45 ≤ best.finalScore then "needs_review"
    else "unmatched"
  { InvoiceID := if status ≠ "unmatched" then some best.candidate.ID else none,
    Confidence := best.finalScore,
    Status := status }

/-- The empty-candidate result of `MatchTransaction`
(`reason = no_invoice_with_matching_amount` lives in the unmodelled
details map). -/
def emptyResult : MatchResult :=
  { InvoiceID := none, Confidence := 0, Status := "unmatched" }

/-- `MatchTransaction` from matcher.go (current revision). The `amount`
argument is carried only into the details map in the source. The
`none` head case is unreachable: sorting preserves length. -/
def MatchTransaction (description : String) (amount : String)
    (transactionDate : ℤ) (candidates : List InvoiceCandidate) :
    MatchResult :=
  if candidates.isEmpty then emptyResult
  else
    match (sortedScored description transactionDate candidates).head? with
    | none => emptyResult
    | some best => decideFromBest best

/-! ## Invoice cache (invoice_cache.go) -/

/-- A row of the `invoices` table as read by `LoadInvoiceCache`;
`paidAt` is the `paid_at` column (absent = SQL NULL). -/
structure InvoiceRow where
  id : String
  invoiceNumber : String
  amount : String
  dueDate : ℤ
  customerName : String
  status : String
  paidAt : Option ℤ
deriving DecidableEq

/-- The WHERE clause of the `LoadInvoiceCache` query:
`status IN ('sent', 'overdue') AND (paid_at IS NULL OR status != 'paid')`. -/
def invoiceEligibleWhere (r : InvoiceRow) : Bool :=
  (r.status == "sent" || r.status == "overdue") &&
    (r.paidAt == none || r.status != "paid")

/-- Candidate construction in the `LoadInvoiceCache` loop, including the
pre-computed normalized name. -/
def toCandidate (r : InvoiceRow) : InvoiceCandidate :=
  { ID := r.id, InvoiceNumber := r.invoiceNumber, Amount := r.amount,
    DueDate := r.dueDate, CustomerName := r.customerName,
    NormalizedName := normalizeName r.customerName, Status := r.status }

/-- One amount bucket of the cache built by `LoadInvoiceCache`: the rows
(in the order the database returned them) that pass the WHERE clause are
appended to `ByAmount[amount]` one at a time; no sort is applied. -/
def loadInvoiceCacheBucket (rows : List InvoiceRow) (amount : String) :
    List InvoiceCandidate :=
  (rows.filter invoiceEligibleWhere).foldl
    (fun acc r => if r.amount = amount then acc ++ [toCandidate r] else acc) []

/-- The canonical-order check of the specification for an amount bucket:
consecutive candidates ordered by due date ascending with ties broken by
id ascending. -/
def bucketSortedB : List InvoiceCandidate → Bool
  | [] => true
  | [_] => true
  | x :: y :: t =>
    (decide (x.DueDate < y.DueDate) ||
      (x.DueDate == y.DueDate && decide (x.ID ≤ y.ID))) &&
    bucketSortedB (y :: t)

/-! ## CSV processor (ProcessJob / processCSVFromContent) -/

/-- Day number of a proleptic-Gregorian calendar date (days since
1970-01-01), the standard civil-days computation; this is the day-number
form of the `time.Time` values `time.Parse("2006-01-02", s)` yields. -/
def daysFromCivil (y m d : ℤ) : ℤ :=
  let y2 := if m ≤ 2 then y - 1 else y
  let era := Int.fdiv y2 400
  let yoe := y2 - era * 400
  let mp := Int.fmod (m + 9) 12
  let doy := Int.fdiv (153 * mp + 2) 5 + d - 1
  let doe := yoe * 365 + Int.fdiv yoe 4 - Int.fdiv yoe 100 + doy
  era * 146097 + doe - 719468

/-- Leap-year test of the Gregorian calendar. -/
def isLeapYear (y : ℤ) : Bool :=
  (y % 4 == 0 && y % 100 != 0) || y % 400 == 0

/-- Days in a month (Gregorian). -/
def daysInMonth (y : ℤ) (m : ℕ) : ℕ :=
  if m = 2 then (if isLeapYear y then 29 else 28)
  else if m = 4 ∨ m = 6 ∨ m = 9 ∨ m = 11 then 30
  else 31

/-- Numeric value of a decimal digit character. -/
def digitVal (c : Char) : ℕ :=
  c.toNat - 48

/-- Embedding of `time.Parse("2006-01-02", s)`: exactly ten characters
`YYYY-MM-DD`, all digits in the right places, month 1..12 and day valid
for the month; returns the day number on success. -/
def parseDateYMD (s : String) : Option ℤ :=
  match s.data with
  | [y1, y2, y3, y4, h1, m1, m2, h2, d1, d2] =>
    if h1 = '-' ∧ h2 = '-' ∧
        ([y1, y2, y3, y4, m1, m2, d1, d2].all Char.isDigit) then
      let y : ℤ := (1000 * digitVal y1 + 100 * digitVal y2 +
        10 * digitVal y3 + digitVal y4 : ℕ)
      let mo := 10 * digitVal m1 + digitVal m2
      let da := 10 * digitVal d1 + digitVal d2
      if 1 ≤ mo ∧ mo ≤ 12 ∧ 1 ≤ da ∧ da ≤ daysInMonth y mo then
        some (daysFromCivil y mo da)
      else none
    else none
  | _ => none

/-- Split a leading run of decimal digits: count and remainder. -/
def spanDigits : List Char → ℕ × List Char
  | [] => (0, [])
  | c :: cs =>
    if c.isDigit then
      let r := spanDigits cs
      (r.1 + 1, r.2)
    else (0, c :: cs)

/-- Drop one optional leading sign character. -/
def dropSignChar : List Char → List Char
  | c :: cs => if c = '+' ∨ c = '-' then cs else c :: cs
  | l => l

/-- Exponent tail of a decimal literal: optional sign then at least one
digit and nothing more. -/
def expTailOk (cs : List Char) : Bool :=
  let cs2 := dropSignChar cs
  let r := spanDigits cs2
  decide (1 ≤ r.1) && decide (r.2 = [])

/-- Embedding of the `strconv.ParseFloat(s, 64)` syntax check used by
`parseRow` to validate amounts: optional sign; `inf`, `infinity` or
`nan` (case-insensitive); or a decimal mantissa with at least one digit,
an optional fractional part and an optional exponent. The hexadecimal
and digit-separator literal forms Go also accepts are irrelevant to CSV
amounts and are left out. -/
def amountOkGo (s : String) : Bool :=
  match s.data with
  | [] => false
  | cs =>
    let cs1 := dropSignChar (cs.map Char.toLower)
    if cs1 = "inf".data ∨ cs1 = "infinity".data ∨ cs1 = "nan".data then true
    else
      let r1 := spanDigits cs1
      let afterDot :=
        match r1.2 with
        | '.' :: t => spanDigits t
        | _ => (0, r1.2)
      if r1.1 + afterDot.1 = 0 then false
      else
        match afterDot.2 with
        | [] => true
        | e :: t => (e = 'e') && expTailOk t

/-- The column map of `processCSVFromContent`: index of the last header
field whose lowercased, trimmed text equals `name` (later duplicates
overwrite earlier entries in the Go map). -/
def colIndexAux : List String → String → ℕ → Option ℕ
  | [], _, _ => none
  | h :: t, name, i =>
    match colIndexAux t name (i + 1) with
    | some j => some j
    | none => if toLowerStr (trimGo h) = name then some i else none

/-- Column lookup in a header record. -/
def colIndex (header : List String) (name : String) : Option ℕ :=
  colIndexAux header name 0

/-- The four column indices `parseRow` consults. -/
structure ColMap where
  dateIdx : Option ℕ
  descIdx : Option ℕ
  amountIdx : Option ℕ
  refIdx : Option ℕ
deriving DecidableEq

/-- Build the column map from the header record. -/
def mkColMap (header : List String) : ColMap :=
  { dateIdx := colIndex header "transaction_date",
    descIdx := colIndex header "description",
    amountIdx := colIndex header "amount",
    refIdx := colIndex header "reference_number" }

/-- `TransactionRow` from the processor. -/
structure TransactionRow where
  transactionDate : ℤ
  description : String
  amount : String
  referenceNumber : Option String
deriving DecidableEq

/-- Field access with the `exists && idx < len(record)` guard of
`parseRow`. -/
def getField (record : List String) : Option ℕ → Option String
  | none => none
  | some i => record.get? i

/-- `parseRow` from the processor: required date (strict `YYYY-MM-DD`),
required description, required numeric amount (stored as its raw text),
optional non-empty reference number. Failure of any required part skips
the row. -/
def parseRow (record : List String) (cm : ColMap) : Option TransactionRow :=
  match getField record cm.dateIdx with
  | none => none
  | some ds =>
    match parseDateYMD ds with
    | none => none
    | some date =>
      match getField record cm.descIdx with
      | none => none
      | some desc =>
        match getField record cm.amountIdx with
        | none => none
        | some amt =>
          if amountOkGo amt then
            let ref :=
              match getField record cm.refIdx with
              | some r => if r ≠ "" then some r else none
              | none => none
            some { transactionDate := date, description := desc,
                   amount := amt, referenceNumber := ref }
          else none

/-- Running state of `processCSVFromContent`: the reservation set
`MatchedInvoices` (as a list of ids), the pending insert buffer, the
rows already flushed to `bank_transactions`, the counters, and a
decision trace holding, for every successfully parsed row in order, the
filtered candidate list it was matched against and its result. -/
structure ProcAcc where
  reserved : List String
  buffer : List (TransactionRow × MatchResult)
  inserted : List (TransactionRow × MatchResult)
  processed : ℕ
  auto : ℕ
  review : ℕ
  unmatched : ℕ
  invalid : ℕ
  trace : List (List InvoiceCandidate × MatchResult)
deriving DecidableEq

/-- The initial processor state. -/
def initAcc : ProcAcc :=
  { reserved := [], buffer := [], inserted := [], processed := 0,
    auto := 0, review := 0, unmatched := 0, invalid := 0, trace := [] }

/-- `flushBatch`: insert the buffered rows, then add the buffer size to
`processedCount` and bump the per-status counters (a no-op on an empty
buffer, as in the source). The progress write it triggers does not
change this state. -/
def flushAcc (acc : ProcAcc) : ProcAcc :=
  if acc.buffer = [] then acc
  else
    { acc with
      inserted := acc.inserted ++ acc.buffer,
      processed := acc.processed + acc.buffer.length,
      auto := acc.auto +
        (acc.buffer.filter (fun pr => pr.2.Status = "auto_matched")).length,
      review := acc.review +
        (acc.buffer.filter (fun pr => pr.2.Status = "needs_review")).length,
      unmatched := acc.unmatched +
        (acc.buffer.filter (fun pr => pr.2.Status = "unmatched")).length,
      buffer := [] }

/-- The successfully-parsed-row part of one iteration of the row loop of
`processCSVFromContent`: filter the amount bucket through
`MatchedInvoices` (the reservation set), match, reserve the chosen
invoice for auto_matched or needs_review, and buffer the row together
with its decision. The decision trace records the filtered candidate
list and the result. -/
def procStepCore (cache : String → List InvoiceCandidate) (acc : ProcAcc)
    (row : TransactionRow) : ProcAcc :=
  let candidates := cache row.amount
  let filtered := candidates.filter (fun c => !(decide (c.ID ∈ acc.reserved)))
  let mres := MatchTransaction row.description row.amount
    row.transactionDate filtered
  let reserved2 :=
    match mres.InvoiceID with
    | some id =>
      if mres.Status = "auto_matched" ∨ mres.Status = "needs_review" then
        id :: acc.reserved
      else acc.reserved
    | none => acc.reserved
  { acc with
    reserved := reserved2,
    buffer := acc.buffer ++ [(row, mres)],
    trace := acc.trace ++ [(filtered, mres)] }

/-- One iteration of the row loop continued: after the core update,
flush when the buffer reaches the batch size. -/
def procStep (cache : String → List InvoiceCandidate) (batchSize : ℕ)
    (cm : ColMap) (acc : ProcAcc) (record : List String) : ProcAcc :=
  match parseRow record cm with
  | none => { acc with invalid := acc.invalid + 1 }
  | some row =>
    let acc2 := procStepCore cache acc row
    if batchSize ≤ acc2.buffer.length then flushAcc acc2 else acc2

/-- Result of a successful `processCSVFromContent` run: the final state
after the tail flush, and the value `SetBatchTotal` receives for
`total_transactions` (the final `processedCount`). -/
structure ProcOut where
  acc : ProcAcc
  totalTransactions : ℕ
deriving DecidableEq

/-- `processCSVFromContent`: read the header, build the column map, fail
on a missing required column, run the row loop, tail-flush, then set
`total_transactions` to the final `processedCount` via `SetBatchTotal`
and write the final counters. `none` models the error returns (missing
header or missing required column). -/
def processCSVFromContent (cache : String → List InvoiceCandidate)
    (batchSize : ℕ) (records : List (List String)) : Option ProcOut :=
  match records with
  | [] => none
  | header :: rows =>
    let cm := mkColMap header
    if cm.dateIdx = none ∨ cm.descIdx = none ∨ cm.amountIdx = none then none
    else
      let fin := flushAcc (rows.foldl (procStep cache batchSize cm) initAcc)
      some { acc := fin, totalTransactions := fin.processed }

/-- The matched invoice ids of a decision trace, in decision order: the
invoice id of every auto_matched or needs_review decision. -/
def matchedIds (trace : List (List InvoiceCandidate × MatchResult)) :
    List String :=
  trace.filterMap (fun e =>
    if e.2.Status = "auto_matched" ∨ e.2.Status = "needs_review" then
      e.2.InvoiceID
    else none)

/-! ## Job queue (worker package, claimJob) -/

/-- A row of the `reconciliation_jobs` table; times are abstract
instants (minutes). -/
structure JobRow where
  id : String
  createdAt : ℕ
  status : String
  attempts : ℕ
  updatedAt : ℕ
deriving DecidableEq

/-- The selection condition of the `claimJob` query at time `now`:
`status = 'queued' OR (status = 'processing' AND updated_at <
NOW() - staleThreshold)`. -/
def jobEligible (stale now : ℕ) (r : JobRow) : Bool :=
  r.status == "queued" ||
    (r.status == "processing" && decide (r.updatedAt + stale < now))

/-- The UPDATE of `claimJob`: every row with the claimed id becomes
`processing` with `attempts + 1` and `updated_at = NOW()`. -/
def claimUpdate (now : ℕ) (j : String) (tbl : List JobRow) : List JobRow :=
  tbl.map (fun r =>
    if r.id = j then
      { r with
        status := "processing",
        attempts := r.attempts + 1,
        updatedAt := now }
    else r)

/-- Serialized traces of concurrent `claimJob` calls. The
`FOR UPDATE SKIP LOCKED` row lock is held from the SELECT to the COMMIT,
so overlapping claim transactions serialize on the jobs table: each
claim atomically either returns no job (no eligible row existed) or
returns an eligible row of minimal `created_at`, updating it before any
other claim reads it — any claim that skipped the locked row observes
the committed `processing` state afterwards. Event times are
nondecreasing along the trace. -/
inductive ClaimSeq (stale : ℕ) : ℕ → List JobRow → List (ℕ × Option String) → Prop
  | nil (t : ℕ) (tbl : List JobRow) : ClaimSeq stale t tbl []
  | claimNone (t now : ℕ) (tbl : List JobRow)
      (rest : List (ℕ × Option String)) :
      t ≤ now →
      (∀ r ∈ tbl, jobEligible stale now r = false) →
      ClaimSeq stale now tbl rest →
      ClaimSeq stale t tbl ((now, none) :: rest)
  | claimSome (t now : ℕ) (tbl : List JobRow) (j : String) (r : JobRow)
      (rest : List (ℕ × Option String)) :
      t ≤ now →
      r ∈ tbl → r.id = j → jobEligible stale now r = true →
      (∀ r2 ∈ tbl, jobEligible stale now r2 = true →
        r.createdAt ≤ r2.createdAt) →
      ClaimSeq stale now (claimUpdate now j tbl) rest →
      ClaimSeq stale t tbl ((now, some j) :: rest)

/-! ## Sorting lemmas -/

theorem insertStable_perm (less : α → α → Bool) (a : α) (l : List α) :
    (insertStable less a l).Perm (a :: l) := by
  induction l with
  | nil => simp [insertStable]
  | cons b bs ih =>
    simp only [insertStable]
    split
    · exact (ih.cons b).trans (List.Perm.swap a b bs)
    · exact List.Perm.refl _

theorem sortStable_perm (less : α → α → Bool) (l : List α) :
    (sortStable less l).Perm l := by
  induction l with
  | nil => simp [sortStable]
  | cons a l ih =>
    have : sortStable less (a :: l) = insertStable less a (sortStable less l) := rfl
    rw [this]
    exact (insertStable_perm less a (sortStable less l)).trans (ih.cons a)

theorem insertStable_pairwise {less : α → α → Bool}
    (asym : ∀ x y, less x y = true → less y x = false)
    (negtrans : ∀ x y z, less y x = false → less z y = false →
      less z x = false)
    (a : α) (l : List α)
    (h : l.Pairwise (fun x y => less y x = false)) :
    (insertStable less a l).Pairwise (fun x y => less y x = false) := by
  induction l with
  | nil => simp [insertStable]
  | cons b bs ih =>
    rcases List.pairwise_cons.mp h with ⟨hb, hbs⟩
    simp only [insertStable]
    split
    · rename_i hba
      refine List.pairwise_cons.mpr ⟨?_, ih hbs⟩
      intro x hx
      have hmem : x ∈ a :: bs := (insertStable_perm less a bs).subset hx
      rcases List.mem_cons.mp hmem with hxa | hxbs
      · subst hxa; exact asym _ _ hba
      · exact hb x hxbs
    · rename_i hba
      refine List.pairwise_cons.mpr ⟨?_, h⟩
      intro x hx
      rcases List.mem_cons.mp hx with hxb | hxbs
      · subst hxb; exact Bool.not_eq_true _ ▸ (by simpa using hba)
      · exact negtrans _ _ _ (by simpa using hba) (hb x hxbs)

theorem sortStable_pairwise {less : α → α → Bool}
    (asym : ∀ x y, less x y = true → less y x = false)
    (negtrans : ∀ x y z, less y x = false → less z y = false →
      less z x = false)
    (l : List α) :
    (sortStable less l).Pairwise (fun x y => less y x = false) := by
  induction l with
  | nil => simp [sortStable]
  | cons a l ih => exact insertStable_pairwise asym negtrans a _ ih

/-! ## The strict total order used by the matcher sort -/

/-- Lexicographic key realizing `scoredLess`: basis points negated so
that the lexicographic order on the key is exactly the sort order. -/
def scoredKey (x : ScoredCandidate) : ℤ ×ₗ (ℕ ×ₗ (ℤ ×ₗ String)) :=
  toLex (-x.finalScoreBP,
    toLex (x.dateDelta.natAbs, toLex (x.candidate.DueDate, x.candidate.ID)))

theorem scoredLess_iff_keyLt (x y : ScoredCandidate) :
    scoredLess x y = true ↔ scoredKey x < scoredKey y := by
  unfold scoredLess scoredKey
  simp only [Prod.Lex.lt_iff]
  split <;> rename_i h1
  · simp only [decide_eq_true_eq]
    constructor
    · intro h; exact Or.inl (by omega)
    · rintro (h | ⟨he, _⟩) <;> omega
  · split <;> rename_i h2
    · simp only [decide_eq_true_eq]
      constructor
      · intro h; exact Or.inr ⟨by omega, Or.inl h⟩
      · rintro (h | ⟨he, h | ⟨he2, _⟩⟩)
        · omega
        · exact h
        · omega
    · split <;> rename_i h3
      · simp only [decide_eq_true_eq]
        constructor
        · intro h
          exact Or.inr ⟨by omega, Or.inr ⟨by omega, Or.inl h⟩⟩
        · rintro (h | ⟨he, h | ⟨he2, h | ⟨he3, _⟩⟩⟩)
          · omega
          · omega
          · exact h
          · exact absurd he3 h3
      · simp only [decide_eq_true_eq]
        constructor
        · intro h
          exact Or.inr ⟨by omega, Or.inr ⟨by omega,
            Or.inr ⟨not_not.mp h3, h⟩⟩⟩
        · rintro (h | ⟨he, h | ⟨he2, h | ⟨he3, h⟩⟩⟩)
          · omega
          · omega
          · omega
          · exact h

theorem scoredLess_asymm (x y : ScoredCandidate) :
    scoredLess x y = true → scoredLess y x = false := by
  intro h
  rw [scoredLess_iff_keyLt] at h
  by_contra hc
  have h2 : scoredLess y x = true := by
    revert hc; cases scoredLess y x <;> simp
  rw [scoredLess_iff_keyLt] at h2
  exact absurd h2 (not_lt_of_lt h)

theorem scoredLess_negtrans (x y z : ScoredCandidate) :
    scoredLess y x = false → scoredLess z y = false →
    scoredLess z x = false := by
  intro h1 h2
  by_contra hc
  have h3 : scoredLess z x = true := by
    revert hc; cases scoredLess z x <;> simp
  rw [scoredLess_iff_keyLt] at h3
  have k1 : ¬ scoredKey y < scoredKey x := fun hk =>
    by simp [(scoredLess_iff_keyLt y x).mpr hk] at h1
  have k2 : ¬ scoredKey z < scoredKey y := fun hk =>
    by simp [(scoredLess_iff_keyLt z y).mpr hk] at h2
  exact absurd (lt_of_lt_of_le h3 (le_of_not_lt k1)) k2

theorem scoredLess_total_of_ne_id (x y : ScoredCandidate)
    (h : x.candidate.ID ≠ y.candidate.ID) :
    scoredLess x y = true ↔ scoredLess y x = false := by
  have hkey : scoredKey x ≠ scoredKey y := by
    intro he
    unfold scoredKey at he
    have := congrArg (fun p => (ofLex (ofLex (ofLex p).2).2).2) he
    simp at this
    exact h this
  constructor
  · exact scoredLess_asymm x y
  · intro hf
    rw [scoredLess_iff_keyLt]
    rcases lt_trichotomy (scoredKey x) (scoredKey y) with hlt | heq | hgt
    · exact hlt
    · exact absurd heq hkey
    · exact absurd ((scoredLess_iff_keyLt y x).mpr hgt)
        (by simp [hf])

/-! ## Matcher lemmas -/

theorem headSomeMem {α : Type} {l : List α} {a : α} (h : l.head? = some a) :
    a ∈ l := by
  cases l with
  | nil => simp at h
  | cons x xs =>
    simp only [List.head?_cons, Option.some.injEq] at h
    subst h
    exact List.mem_cons_self _ _

theorem scoreOne_candidate (en ei : String) (w : Bool) (n : ℕ) (t : ℤ)
    (cand : InvoiceCandidate) : (scoreOne en ei w n t cand).candidate = cand :=
  rfl

theorem scoreCandidates_mem_candidate {d : String} {t : ℤ}
    {cands : List InvoiceCandidate} {x : ScoredCandidate}
    (h : x ∈ scoreCandidates d t cands) : x.candidate ∈ cands := by
  unfold scoreCandidates at h
  rcases List.mem_map.mp h with ⟨c, hc, he⟩
  rw [← he, scoreOne_candidate]
  exact hc

theorem sortedScored_perm (d : String) (t : ℤ)
    (cands : List InvoiceCandidate) :
    (sortedScored d t cands).Perm (scoreCandidates d t cands) :=
  sortStable_perm scoredLess (scoreCandidates d t cands)

theorem MatchTransaction_eq_best {d a : String} {t : ℤ}
    {cands : List InvoiceCandidate} {best : ScoredCandidate}
    (h : (sortedScored d t cands).head? = some best) :
    MatchTransaction d a t cands = decideFromBest best := by
  cases cands with
  | nil => simp [sortedScored, scoreCandidates, sortStable] at h
  | cons c cs =>
    unfold MatchTransaction
    rw [if_neg (by simp), h]

theorem best_mem_scored {d : String} {t : ℤ}
    {cands : List InvoiceCandidate} {best : ScoredCandidate}
    (h : (sortedScored d t cands).head? = some best) :
    best ∈ scoreCandidates d t cands :=
  (sortedScored_perm d t cands).subset (headSomeMem h)

theorem calculateDateAdjustment_le_five (delta : ℤ) :
    calculateDateAdjustment delta ≤ 5 := by
  unfold calculateDateAdjustment
  split_ifs <;> norm_num

theorem round2_le_55 {q : ℚ} (h : q ≤ 55) : round2 q ≤ 55 := by
  unfold round2
  have h1 : ((round (q * 100) : ℤ) : ℚ) ≤ q * 100 + 1 / 2 :=
    round_le_add_half _
  have h2 : ((round (q * 100) : ℤ) : ℚ) < 5501 := by nlinarith
  have h3 : round (q * 100) < 5501 := by exact_mod_cast h2
  have h4 : ((round (q * 100) : ℤ) : ℚ) ≤ 5500 := by
    have := Int.lt_add_one_iff.mp (by omega : round (q * 100) < 5500 + 1)
    exact_mod_cast this
  linarith

theorem clampScore_le {q c : ℚ} (h0 : 0 ≤ c) (h : q ≤ c) :
    clampScore q ≤ c :=
  max_le h0 (le_trans (min_le_right _ _) h)

theorem weak_clamp_bound (x adj pen : ℚ) (hadj : adj ≤ 5) (hpen : 0 ≤ pen) :
    round2 (clampScore (min x 50 + adj - pen)) ≤ 55 := by
  apply round2_le_55
  apply clampScore_le (by norm_num)
  have := min_le_right x 50
  linarith

theorem scoreOne_weak_le (en ei : String) (n : ℕ) (t : ℤ)
    (cand : InvoiceCandidate) :
    (scoreOne en ei true n t cand).finalScore ≤ 55 := by
  unfold scoreOne
  simp only [if_true]
  exact weak_clamp_bound _ _ _ (calculateDateAdjustment_le_five _)
    (by
      split_ifs with hn
      · have h2 : (2 : ℚ) < (n : ℚ) := by exact_mod_cast hn
        nlinarith
      · exact le_refl 0)

theorem decideFromBest_status_auto (b : ScoredCandidate) :
    (decideFromBest b).Status = "auto_matched" ↔ 75 ≤ b.finalScore := by
  unfold decideFromBest
  split_ifs with h75 h45
  · exact iff_of_true rfl h75
  · exact iff_of_false (by intro h; simp at h) h75
  · exact iff_of_false (by intro h; simp at h) h75

theorem decideFromBest_status_review (b : ScoredCandidate) :
    (decideFromBest b).Status = "needs_review" ↔
      45 ≤ b.finalScore ∧ b.finalScore < 75 := by
  unfold decideFromBest
  split_ifs with h75 h45
  · exact iff_of_false (by intro h; simp at h) (by rintro ⟨_, h⟩; linarith)
  · exact iff_of_true rfl ⟨h45, not_le.mp h75⟩
  · exact iff_of_false (by intro h; simp at h) (by rintro ⟨h, _⟩; exact h45 h)

theorem decideFromBest_status_unmatched (b : ScoredCandidate) :
    (decideFromBest b).Status = "unmatched" ↔ b.finalScore < 45 := by
  unfold decideFromBest
  split_ifs with h75 h45
  · exact iff_of_false (by intro h; simp at h) (by intro h; linarith)
  · exact iff_of_false (by intro h; simp at h) (by intro h; linarith)
  · exact iff_of_true rfl (not_le.mp h45)

theorem decideFromBest_confidence (b : ScoredCandidate) :
    (decideFromBest b).Confidence = b.finalScore :=
  rfl

theorem decideFromBest_id_unmatched (b : ScoredCandidate)
    (h : b.finalScore < 45) : (decideFromBest b).InvoiceID = none := by
  unfold decideFromBest
  split_ifs with h75 h45
  · linarith
  · linarith
  · simp

/-! ## Concrete fixtures -/

/-- The invoice of the end-to-end scenarios of the specification
(customer Sarah Adams, amount 1250.00, due 2024-12-10, status sent). -/
def invSarah : InvoiceCandidate :=
  { ID := "I1", InvoiceNumber := "INV-1", Amount := "1250.00",
    DueDate := daysFromCivil 2024 12 10, CustomerName := "Sarah Adams",
    NormalizedName := normalizeName "Sarah Adams", Status := "sent" }

/-- Invoice fixture for the ambiguous-pair scenario. -/
def invJohn : InvoiceCandidate :=
  { ID := "I1", InvoiceNumber := "INV-001", Amount := "450.00",
    DueDate := daysFromCivil 2024 12 10, CustomerName := "John Smith",
    NormalizedName := normalizeName "John Smith", Status := "sent" }

/-- Second invoice fixture for the ambiguous-pair scenario. -/
def invJane : InvoiceCandidate :=
  { ID := "I2", InvoiceNumber := "INV-002", Amount := "450.00",
    DueDate := daysFromCivil 2024 12 10, CustomerName := "Jane Smith",
    NormalizedName := normalizeName "Jane Smith", Status := "sent" }

/-- Invoice fixture whose name shares no character with the description
`XQZW`, giving a low but positive final score. -/
def invLow : InvoiceCandidate :=
  { ID := "I9", InvoiceNumber := "INV-9", Amount := "1.00",
    DueDate := 0, CustomerName := "Sarah Adams",
    NormalizedName := normalizeName "Sarah Adams", Status := "sent" }

/-- Placeholder scored candidate used only as the `headD` default of the
witness fixtures (never selected: the sorted lists are non-empty). -/
def dummyScored : ScoredCandidate :=
  scoreOne "" "" false 0 0 invSarah

/-- The best scored candidate of the exact-match scenario. -/
def bestSarahW : ScoredCandidate :=
  (sortedScored "SARAH ADAMS" (daysFromCivil 2024 12 10) [invSarah]).headD
    dummyScored

/-- The best scored candidate of the ambiguous-pair scenario. -/
def bestJohnW : ScoredCandidate :=
  (sortedScored "JOHN SMITH" (daysFromCivil 2024 12 10)
    [invJohn, invJane]).headD dummyScored

/-- The best scored candidate of the low-score scenario. -/
def bestLowW : ScoredCandidate :=
  (sortedScored "XQZW" 0 [invLow]).headD dummyScored

/-! ## Claim theorems -/

/-- C1, counterexample. The claim says that with the default thresholds
a best final score of 90 (at least 60 and below 95) yields needs_review;
`MatchTransaction` in matcher.go compares against 75/45 and returns
auto_matched for the single exact-name candidate 35 days late (score
100 − 10 = 90). -/
theorem claim1_counterexample :
    (MatchTransaction "SARAH ADAMS" "1250.00"
      (daysFromCivil 2024 12 10 + 35) [invSarah]).Status = "auto_matched" ∧
    (MatchTransaction "SARAH ADAMS" "1250.00"
      (daysFromCivil 2024 12 10 + 35) [invSarah]).Confidence = 90 ∧
    ¬ ((95 : ℚ) ≤ 90) := by
  refine ⟨by decide, by decide, by norm_num⟩

/-- C1, amended. For every non-empty candidate list (equivalently,
whenever the sorted scored list has a head `best`), `MatchTransaction`
assigns auto_matched exactly when `best.finalScore ≥ 75`, needs_review
exactly when `45 ≤ best.finalScore < 75`, and unmatched otherwise; there
is no demotion step — instead, when the extracted name is weak the name
score of every candidate is capped at 50 before scoring, so the final
score is at most 55 and the result is never auto_matched, regardless of
how many candidates exist. -/
theorem claim1_amended (d a : String) (t : ℤ)
    (cands : List InvoiceCandidate) (best : ScoredCandidate)
    (h : (sortedScored d t cands).head? = some best) :
    ((MatchTransaction d a t cands).Status = "auto_matched" ↔
      75 ≤ best.finalScore) ∧
    ((MatchTransaction d a t cands).Status = "needs_review" ↔
      45 ≤ best.finalScore ∧ best.finalScore < 75) ∧
    ((MatchTransaction d a t cands).Status = "unmatched" ↔
      best.finalScore < 45) ∧
    (nameTooWeakB (extractNameFromDescription d) = true →
      (MatchTransaction d a t cands).Status ≠ "auto_matched") := by
  rw [MatchTransaction_eq_best h]
  refine ⟨decideFromBest_status_auto best, decideFromBest_status_review best,
    decideFromBest_status_unmatched best, ?_⟩
  intro hw
  rw [Ne, decideFromBest_status_auto]
  intro h75
  have hb := best_mem_scored h
  unfold scoreCandidates at hb
  rcases List.mem_map.mp hb with ⟨c, _, he⟩
  rw [hw] at he
  have hle := scoreOne_weak_le (extractNameFromDescription d)
    (initialsOf (extractNameFromDescription d)) cands.length t c
  rw [he] at hle
  linarith

/-- C1, witness for the amended theorem: the exact-match scenario is
auto_matched under the 75 threshold. -/
theorem claim1_witness :
    (MatchTransaction "SARAH ADAMS" "1250.00" (daysFromCivil 2024 12 10)
      [invSarah]).Status = "auto_matched" :=
  (claim1_amended "SARAH ADAMS" "1250.00" (daysFromCivil 2024 12 10)
    [invSarah] bestSarahW (by decide)).1.mpr (by decide)

/-- C2. The matcher sort is by the strict comparison `scoredLess`
(higher integer basis points `round(final × 100)`, then smaller absolute
date delta, then earlier due date, then lexicographically smaller
invoice id): the sorted list is a permutation of the scored list ordered
by that comparison, the comparison is a strict total order on candidates
with distinct invoice ids, the basis points are `round(final × 100)`,
and the decision is derived from the head of the sorted list. The
matcher is a pure function of its four arguments, so identical inputs
give identical decisions across runs and workers. -/
theorem claim2_sort_strict_total_order (d a : String) (t : ℤ)
    (cands : List InvoiceCandidate) :
    (sortedScored d t cands).Perm (scoreCandidates d t cands) ∧
    (sortedScored d t cands).Pairwise (fun u v => scoredLess v u = false) ∧
    (∀ x y : ScoredCandidate, x.candidate.ID ≠ y.candidate.ID →
      (scoredLess x y = true ↔ scoredLess y x = false)) ∧
    (∀ sc ∈ scoreCandidates d t cands,
      sc.finalScoreBP = round (sc.finalScore * 100)) ∧
    (∀ best, (sortedScored d t cands).head? = some best →
      MatchTransaction d a t cands = decideFromBest best) := by
  refine ⟨sortedScored_perm d t cands,
    sortStable_pairwise scoredLess_asymm scoredLess_negtrans _,
    scoredLess_total_of_ne_id, ?_,
    fun best h => MatchTransaction_eq_best h⟩
  intro sc hsc
  unfold scoreCandidates at hsc
  rcases List.mem_map.mp hsc with ⟨c, _, he⟩
  rw [← he]
  rfl

/-- Scored fixture over the first ambiguous-pair invoice. -/
def scJohnW : ScoredCandidate :=
  scoreOne "JOHN SMITH" "JS" false 2 (daysFromCivil 2024 12 10) invJohn

/-- Scored fixture over the second ambiguous-pair invoice. -/
def scJaneW : ScoredCandidate :=
  scoreOne "JOHN SMITH" "JS" false 2 (daysFromCivil 2024 12 10) invJane

/-- C2, witness: the ambiguous-pair scenario decision is the head of the
sort, and totality holds at two concrete candidates with distinct
ids. -/
theorem claim2_witness :
    MatchTransaction "JOHN SMITH" "450.00" (daysFromCivil 2024 12 10)
      [invJohn, invJane] = decideFromBest bestJohnW ∧
    (scoredLess scJohnW scJaneW = true ↔ scoredLess scJaneW scJohnW = false) :=
  ⟨(claim2_sort_strict_total_order "JOHN SMITH" "450.00"
      (daysFromCivil 2024 12 10) [invJohn, invJane]).2.2.2.2 bestJohnW
      (by decide),
   (claim2_sort_strict_total_order "JOHN SMITH" "450.00"
      (daysFromCivil 2024 12 10) [invJohn, invJane]).2.2.1 scJohnW scJaneW
      (by decide)⟩

/-- C3, counterexample. The claim expects the reordered-name scenario
(description `ADAMS SARAH` against invoice name `Sarah Adams`, row two
days before the due date) to score 100 via a token-sorted measure and be
auto_matched; the scorer in matcher.go has no token-sorted measure and
yields 71.23, needs_review. -/
theorem claim3_counterexample :
    (MatchTransaction "ADAMS SARAH" "1250.00" (daysFromCivil 2024 12 8)
      [invSarah]).Status ≠ "auto_matched" ∧
    (MatchTransaction "ADAMS SARAH" "1250.00" (daysFromCivil 2024 12 8)
      [invSarah]).Confidence ≠ 100 :=
  ⟨by decide, by decide⟩

/-- C3, amended. The similarity scorer is a single Jaro–Winkler measure
(with initials and last-name boosts that do not fire here); on the
reordered-name scenario it yields 5100/77 ≈ 66.23, the date adjustment
is +5, the final score is 71.23, and the decision is needs_review with
that invoice id. -/
theorem claim3_amended :
    jaroWinkler "ADAMS SARAH" "SARAH ADAMS" = 5100 / 77 ∧
    calculateDateAdjustment
      (daysFromCivil 2024 12 8 - daysFromCivil 2024 12 10) = 5 ∧
    MatchTransaction "ADAMS SARAH" "1250.00" (daysFromCivil 2024 12 8)
      [invSarah] =
      { InvoiceID := some "I1", Confidence := 7123 / 100,
        Status := "needs_review" } :=
  ⟨by decide, by decide, by decide⟩

/-- C10. With a non-empty candidate list whose best final score is below
the review threshold (45), the result is unmatched with no invoice id
while `Confidence` still carries the best final score; `Confidence = 0`
is guaranteed in the empty-candidate case; and a concrete unmatched
decision with positive confidence exists (description `XQZW`, score
0 + 2 = 2). -/
theorem claim10_unmatched_confidence :
    (∀ (d a : String) (t : ℤ) (cands : List InvoiceCandidate)
      (best : ScoredCandidate),
      (sortedScored d t cands).head? = some best →
      best.finalScore < 45 →
      (MatchTransaction d a t cands).Status = "unmatched" ∧
      (MatchTransaction d a t cands).InvoiceID = none ∧
      (MatchTransaction d a t cands).Confidence = best.finalScore) ∧
    (∀ (d a : String) (t : ℤ), (MatchTransaction d a t []).Confidence = 0) ∧
    (MatchTransaction "XQZW" "1.00" 0 [invLow]).Status = "unmatched" ∧
    (MatchTransaction "XQZW" "1.00" 0 [invLow]).Confidence = 2 := by
  refine ⟨?_, fun d a t => rfl, by decide, by decide⟩
  intro d a t cands best h hlt
  rw [MatchTransaction_eq_best h]
  exact ⟨(decideFromBest_status_unmatched best).mpr hlt,
    decideFromBest_id_unmatched best hlt, decideFromBest_confidence best⟩

/-- C10, witness: the low-score scenario instantiates the quantified
part. -/
theorem claim10_witness :
    (MatchTransaction "XQZW" "1.00" 0 [invLow]).Status = "unmatched" ∧
    (MatchTransaction "XQZW" "1.00" 0 [invLow]).InvoiceID = none ∧
    (MatchTransaction "XQZW" "1.00" 0 [invLow]).Confidence =
      bestLowW.finalScore :=
  claim10_unmatched_confidence.1 "XQZW" "1.00" 0 [invLow] bestLowW
    (by decide) (by decide)

/-- C4, counterexample. The claim expects `DEPOSIT S ADAMS` to extract
to `S ADAMS` (single letters kept whenever a longer token remains) and
`PURCHASE` to be a noise token; the code keeps a single-letter token
only when a longer token was already kept before it, so the initial `S`
is dropped, and `PURCHASE` is not in the noise list. -/
theorem claim4_counterexample :
    extractNameFromDescription "DEPOSIT S ADAMS" ≠ "S ADAMS" ∧
    extractNameFromDescription "DEPOSIT S ADAMS" = "ADAMS" ∧
    extractNameFromDescription "PURCHASE SMITH" = "PURCHASE SMITH" :=
  ⟨by decide, by decide, by decide⟩

/-- One step of the amended word filter: drop noise tokens, keep words
of length at least two, keep a single-letter word exactly when some word
has already been kept before it. -/
def keepWordStep (acc : List String) (w : String) : List String :=
  if noiseTokens.contains w then acc
  else if 2 ≤ w.length then acc ++ [w]
  else if w.length = 1 ∧ acc ≠ [] then acc ++ [w]
  else acc

/-- Amended-specification form of name extraction, written after the
amended claim text: uppercase, alpha-only cleansing, split into words, a
left fold of `keepWordStep`, join and normalize. -/
def extractNameAmendedSpec (desc : String) : String :=
  let up := desc.data.map Char.toUpper
  let cleaned := up.filter (fun c => ('A' ≤ c ∧ c ≤ 'Z') ∨ c = ' ')
  normalizeName (joinWords ((wordsAux cleaned []).foldl keepWordStep []))

theorem filterNoiseWords_eq_foldl (ws : List String) :
    ∀ acc, filterNoiseWords ws acc = ws.foldl keepWordStep acc.reverse := by
  induction ws with
  | nil => intro acc; simp [filterNoiseWords]
  | cons w ws ih =>
    intro acc
    rw [filterNoiseWords, List.foldl_cons]
    by_cases h1 : noiseTokens.contains w = true
    · rw [if_pos h1, show keepWordStep acc.reverse w = acc.reverse from by
        unfold keepWordStep; rw [if_pos h1], ih]
    · rw [if_neg h1]
      by_cases h2 : 2 ≤ w.length
      · rw [if_pos h2, ih, show keepWordStep acc.reverse w =
          acc.reverse ++ [w] from by
            unfold keepWordStep; rw [if_neg h1, if_pos h2]]
        congr 1
        simp
      · rw [if_neg h2]
        by_cases h3 : w.length = 1 ∧ acc ≠ []
        · rw [if_pos h3, ih, show keepWordStep acc.reverse w =
            acc.reverse ++ [w] from by
              unfold keepWordStep
              rw [if_neg h1, if_neg h2,
                if_pos ⟨h3.1, by simpa using h3.2⟩]]
          congr 1
          simp
        · rw [if_neg h3, ih, show keepWordStep acc.reverse w =
            acc.reverse from by
              unfold keepWordStep
              rw [if_neg h1, if_neg h2, if_neg (fun hc =>
                h3 ⟨hc.1, by simpa using hc.2⟩)]]

/-- C4, amended. The extraction equals, for every description, the
amended specification (fixed 36-token noise set without `PURCHASE`;
a single-letter token is kept exactly when a longer token was already
kept before it); in particular `DEPOSIT S ADAMS` extracts to `ADAMS`. -/
theorem claim4_amended :
    (∀ desc, extractNameFromDescription desc = extractNameAmendedSpec desc) ∧
    extractNameFromDescription "DEPOSIT S ADAMS" = "ADAMS" ∧
    noiseTokens.contains "PURCHASE" = false ∧
    noiseTokens.length = 36 := by
  refine ⟨?_, by decide, by decide, by decide⟩
  intro desc
  unfold extractNameFromDescription extractNameAmendedSpec
  simp only [filterNoiseWords_eq_foldl, List.reverse_nil]

/-- An invoice row with status `sent` but a set `paid_at`. -/
def invPaidSent : InvoiceRow :=
  { id := "P1", invoiceNumber := "INV-P", amount := "100.00", dueDate := 0,
    customerName := "Paula Paid", status := "sent", paidAt := some 123 }

/-- C5. The WHERE clause of `LoadInvoiceCache`
(`status IN ('sent','overdue') AND (paid_at IS NULL OR status != 'paid')`)
accepts an invoice with status `sent` and `paid_at` set — the second
conjunct is vacuous once the first holds — so the invoice enters the
cache, contradicting the stated eligibility (`paid_at` absent). -/
theorem claim5_code_bug_eval :
    invPaidSent.paidAt ≠ none ∧
    invoiceEligibleWhere invPaidSent = true ∧
    loadInvoiceCacheBucket [invPaidSent] "100.00" =
      [toCandidate invPaidSent] :=
  ⟨by decide, by decide, by decide⟩

/-- The `paid_at` conjunct of the WHERE clause is dead code: every row
passing the status conjunct passes the whole clause, whatever its
`paid_at`. -/
theorem invoiceEligibleWhere_paid_at_vacuous (r : InvoiceRow)
    (h : r.status = "sent" ∨ r.status = "overdue") :
    invoiceEligibleWhere r = true := by
  unfold invoiceEligibleWhere
  rcases h with h | h <;> rw [h] <;> simp

/-- Invoice row fixture with the later due date, returned first. -/
def invRowB : InvoiceRow :=
  { id := "b", invoiceNumber := "N2", amount := "450.00", dueDate := 10,
    customerName := "Xavier", status := "sent", paidAt := none }

/-- Invoice row fixture with the earlier due date, returned second. -/
def invRowA : InvoiceRow :=
  { id := "a", invoiceNumber := "N1", amount := "450.00", dueDate := 5,
    customerName := "Yolanda", status := "sent", paidAt := none }

/-- C6. `LoadInvoiceCache` appends candidates to the amount bucket in
database return order and never sorts: with the same two eligible
invoices returned in different orders the bucket differs, and the
bucket violates the (due date, id) canonical order the specification
(and the comment in matcher.go) promise. -/
theorem claim6_code_bug_eval :
    loadInvoiceCacheBucket [invRowB, invRowA] "450.00" =
      [toCandidate invRowB, toCandidate invRowA] ∧
    bucketSortedB (loadInvoiceCacheBucket [invRowB, invRowA] "450.00") =
      false ∧
    loadInvoiceCacheBucket [invRowB, invRowA] "450.00" ≠
      loadInvoiceCacheBucket [invRowA, invRowB] "450.00" :=
  ⟨by decide, by decide, by decide⟩

/-! ## Processor invariants (C7, C8) -/

/-- Rows of a buffered or inserted list carrying a given status. -/
def countStatus (s : String) (l : List (TransactionRow × MatchResult)) : ℕ :=
  (l.filter (fun pr => pr.2.Status = s)).length

/-- The three statuses the worker can produce. -/
def statusThree (s : String) : Prop :=
  s = "auto_matched" ∨ s = "needs_review" ∨ s = "unmatched"

/-- The invoice id a trace entry reserved: the matched invoice id when
the decision is auto_matched or needs_review, none otherwise. -/
def entryMatchedId (e : List InvoiceCandidate × MatchResult) :
    Option String :=
  if e.2.Status = "auto_matched" ∨ e.2.Status = "needs_review" then
    e.2.InvoiceID
  else none

theorem matchedIds_eq_filterMap
    (trace : List (List InvoiceCandidate × MatchResult)) :
    matchedIds trace = trace.filterMap entryMatchedId :=
  rfl

/-- Exclusion relation between an earlier and a later trace entry: the
id the earlier entry matched does not appear among the later entry's
candidates. -/
def excludesLater (e1 e2 : List InvoiceCandidate × MatchResult) : Prop :=
  ∀ id, entryMatchedId e1 = some id → id ∉ e2.1.map (fun c => c.ID)

theorem MatchTransaction_status_mem (d a : String) (t : ℤ)
    (cands : List InvoiceCandidate) :
    statusThree (MatchTransaction d a t cands).Status := by
  unfold MatchTransaction
  split
  · exact Or.inr (Or.inr rfl)
  · split
    · exact Or.inr (Or.inr rfl)
    · rename_i best _
      unfold decideFromBest
      split_ifs
      · exact Or.inl rfl
      · exact Or.inr (Or.inl rfl)
      · exact Or.inr (Or.inr rfl)

theorem MatchTransaction_id_mem {d a : String} {t : ℤ}
    {cands : List InvoiceCandidate} {id : String}
    (h : (MatchTransaction d a t cands).InvoiceID = some id) :
    id ∈ cands.map (fun c => c.ID) := by
  unfold MatchTransaction at h
  split at h
  · simp [emptyResult] at h
  · split at h
    · simp [emptyResult] at h
    · rename_i best heq
      have hm : best.candidate ∈ cands :=
        scoreCandidates_mem_candidate (best_mem_scored heq)
      unfold decideFromBest at h
      split_ifs at h <;> simp at h <;> subst h <;>
        exact List.mem_map_of_mem _ hm

theorem countStatus_append (s : String)
    (l1 l2 : List (TransactionRow × MatchResult)) :
    countStatus s (l1 ++ l2) = countStatus s l1 + countStatus s l2 := by
  unfold countStatus
  rw [List.filter_append, List.length_append]

theorem countStatus_three (l : List (TransactionRow × MatchResult))
    (h : ∀ pr ∈ l, statusThree pr.2.Status) :
    countStatus "auto_matched" l + countStatus "needs_review" l +
      countStatus "unmatched" l = l.length := by
  induction l with
  | nil => simp [countStatus]
  | cons pr rest ih =>
    have hpr := h pr (List.mem_cons_self _ _)
    have hrest := ih (fun q hq => h q (List.mem_cons_of_mem _ hq))
    unfold countStatus at *
    rcases hpr with h1 | h1 | h1
    · rw [List.filter_cons, List.filter_cons, List.filter_cons,
        if_pos (by simp [h1]), if_neg (by simp [h1]), if_neg (by simp [h1])]
      simp only [List.length_cons]
      omega
    · rw [List.filter_cons, List.filter_cons, List.filter_cons,
        if_neg (by simp [h1]), if_pos (by simp [h1]), if_neg (by simp [h1])]
      simp only [List.length_cons]
      omega
    · rw [List.filter_cons, List.filter_cons, List.filter_cons,
        if_neg (by simp [h1]), if_neg (by simp [h1]), if_pos (by simp [h1])]
      simp only [List.length_cons]
      omega

/-- The loop invariant of `processCSVFromContent`: counters match the
flushed rows, every buffered or flushed decision has one of the three
worker statuses, the matched ids of the trace are distinct, earlier
matched ids are excluded from later candidate lists, and the
reservation set is exactly the matched ids (in reverse order of
reservation). -/
structure ProcInv (acc : ProcAcc) : Prop where
  processed_eq : acc.processed = acc.inserted.length
  auto_eq : acc.auto = countStatus "auto_matched" acc.inserted
  review_eq : acc.review = countStatus "needs_review" acc.inserted
  unmatched_eq : acc.unmatched = countStatus "unmatched" acc.inserted
  inserted_three : ∀ pr ∈ acc.inserted, statusThree pr.2.Status
  buffer_three : ∀ pr ∈ acc.buffer, statusThree pr.2.Status
  nodup : (matchedIds acc.trace).Nodup
  pairwise : acc.trace.Pairwise excludesLater
  reserved_eq : acc.reserved = (matchedIds acc.trace).reverse

theorem ProcInv_init : ProcInv initAcc := by
  constructor <;> simp [initAcc, matchedIds, countStatus]

theorem flushAcc_buffer (acc : ProcAcc) : (flushAcc acc).buffer = [] := by
  unfold flushAcc
  split_ifs with h
  · exact h
  · rfl

theorem flushAcc_trace (acc : ProcAcc) : (flushAcc acc).trace = acc.trace := by
  unfold flushAcc
  split_ifs <;> rfl

theorem flushAcc_reserved (acc : ProcAcc) :
    (flushAcc acc).reserved = acc.reserved := by
  unfold flushAcc
  split_ifs <;> rfl

theorem flushAcc_invalid (acc : ProcAcc) :
    (flushAcc acc).invalid = acc.invalid := by
  unfold flushAcc
  split_ifs <;> rfl

theorem flushAcc_size (acc : ProcAcc) :
    (flushAcc acc).inserted.length + (flushAcc acc).buffer.length =
      acc.inserted.length + acc.buffer.length := by
  unfold flushAcc
  split_ifs with h
  · rfl
  · simp

theorem ProcInv_flush {acc : ProcAcc} (h : ProcInv acc) :
    ProcInv (flushAcc acc) := by
  unfold flushAcc
  split_ifs with hb
  · exact h
  · constructor
    · simp [h.processed_eq]
    · rw [countStatus_append, h.auto_eq]
      rfl
    · rw [countStatus_append, h.review_eq]
      rfl
    · rw [countStatus_append, h.unmatched_eq]
      rfl
    · intro pr hpr
      rcases List.mem_append.mp hpr with hm | hm
      · exact h.inserted_three pr hm
      · exact h.buffer_three pr hm
    · intro pr hpr
      simp at hpr
    · exact h.nodup
    · exact h.pairwise
    · exact h.reserved_eq

theorem matchedIds_append (t : List (List InvoiceCandidate × MatchResult))
    (e : List InvoiceCandidate × MatchResult) :
    matchedIds (t ++ [e]) = matchedIds t ++ (entryMatchedId e).toList := by
  cases he : entryMatchedId e <;>
    simp [matchedIds_eq_filterMap, List.filterMap_append,
      List.filterMap_cons, he]

theorem mem_reserved_of_matched {acc : ProcAcc} (h : ProcInv acc)
    {e : List InvoiceCandidate × MatchResult} {id : String}
    (he : e ∈ acc.trace) (hid : entryMatchedId e = some id) :
    id ∈ acc.reserved := by
  rw [h.reserved_eq, List.mem_reverse, matchedIds_eq_filterMap]
  exact List.mem_filterMap.mpr ⟨e, he, hid⟩

theorem not_mem_filtered_of_reserved {reserved : List String}
    (cands : List InvoiceCandidate) {id : String}
    (hid : id ∈ reserved) :
    id ∉ (cands.filter
      (fun c => !(decide (c.ID ∈ reserved)))).map (fun c => c.ID) := by
  intro hmem
  rcases List.mem_map.mp hmem with ⟨c, hc, hcid⟩
  have := (List.mem_filter.mp hc).2
  rw [hcid] at this
  simp [hid] at this

theorem ProcInv_core_aux {acc : ProcAcc} (h : ProcInv acc)
    (filtered : List InvoiceCandidate) (row : TransactionRow)
    (mres : MatchResult)
    (hker : statusThree mres.Status)
    (hmem : ∀ id, mres.InvoiceID = some id →
      id ∈ filtered.map (fun c => c.ID))
    (hexc : ∀ id, id ∈ acc.reserved → id ∉ filtered.map (fun c => c.ID)) :
    ProcInv { acc with
      reserved :=
        match mres.InvoiceID with
        | some id =>
          if mres.Status = "auto_matched" ∨ mres.Status = "needs_review" then
            id :: acc.reserved
          else acc.reserved
        | none => acc.reserved,
      buffer := acc.buffer ++ [(row, mres)],
      trace := acc.trace ++ [(filtered, mres)] } := by
  constructor
  · exact h.processed_eq
  · exact h.auto_eq
  · exact h.review_eq
  · exact h.unmatched_eq
  · exact h.inserted_three
  · intro pr hpr
    rcases List.mem_append.mp hpr with hm | hm
    · exact h.buffer_three pr hm
    · rw [List.mem_singleton.mp hm]
      exact hker
  · show (matchedIds (acc.trace ++ [(filtered, mres)])).Nodup
    rw [matchedIds_append]
    cases he : entryMatchedId (filtered, mres) with
    | none => simpa using h.nodup
    | some id =>
      have hIid : mres.InvoiceID = some id := by
        unfold entryMatchedId at he
        split_ifs at he with hc
        exact he
      have hidf := hmem id hIid
      have hnr : id ∉ matchedIds acc.trace := by
        intro hin
        have hres : id ∈ acc.reserved := by
          rw [h.reserved_eq, List.mem_reverse]
          exact hin
        exact hexc id hres hidf
      simp only [Option.toList_some]
      refine List.Nodup.append h.nodup (List.nodup_singleton id) ?_
      intro x hx hx2
      rw [List.mem_singleton.mp hx2] at hx
      exact hnr hx
  · show (acc.trace ++ [(filtered, mres)]).Pairwise excludesLater
    rw [List.pairwise_append]
    refine ⟨h.pairwise, List.pairwise_singleton _ _, ?_⟩
    intro e1 he1 e2 he2
    obtain rfl := List.mem_singleton.mp he2
    intro id hid
    exact hexc id (mem_reserved_of_matched h he1 hid)
  · show _ = (matchedIds (acc.trace ++ [(filtered, mres)])).reverse
    rw [matchedIds_append]
    cases hio : mres.InvoiceID with
    | none =>
      have he : entryMatchedId (filtered, mres) = none := by
        simp [entryMatchedId, hio]
      rw [he]
      simp only [Option.toList_none, List.append_nil, hio]
      exact h.reserved_eq
    | some id =>
      have he : entryMatchedId (filtered, mres) =
          if mres.Status = "auto_matched" ∨ mres.Status = "needs_review" then
            some id
          else none := by
        simp [entryMatchedId, hio]
      rw [he]
      simp only [hio]
      by_cases hc : mres.Status = "auto_matched" ∨
        mres.Status = "needs_review"
      · simp only [if_pos hc, Option.toList_some, List.reverse_append,
          List.reverse_singleton, List.singleton_append, h.reserved_eq]
      · simp only [if_neg hc, Option.toList_none, List.append_nil]
        exact h.reserved_eq

theorem ProcInv_core {acc : ProcAcc} (h : ProcInv acc)
    (cache : String → List InvoiceCandidate) (row : TransactionRow) :
    ProcInv (procStepCore cache acc row) := by
  unfold procStepCore
  exact ProcInv_core_aux h _ row _
    (MatchTransaction_status_mem row.description row.amount
      row.transactionDate _)
    (fun id hid => MatchTransaction_id_mem hid)
    (fun id hid => not_mem_filtered_of_reserved _ hid)

theorem ProcInv_step (cache : String → List InvoiceCandidate)
    (batchSize : ℕ) (cm : ColMap) {acc : ProcAcc} (h : ProcInv acc)
    (r : List String) : ProcInv (procStep cache batchSize cm acc r) := by
  unfold procStep
  cases hp : parseRow r cm with
  | none =>
    exact ⟨h.processed_eq, h.auto_eq, h.review_eq, h.unmatched_eq,
      h.inserted_three, h.buffer_three, h.nodup, h.pairwise, h.reserved_eq⟩
  | some row =>
    have h2 := ProcInv_core h cache row
    dsimp only
    split_ifs with hb
    · exact ProcInv_flush h2
    · exact h2

theorem procFold_inv (cache : String → List InvoiceCandidate)
    (batchSize : ℕ) (cm : ColMap) (rows : List (List String)) :
    ∀ acc, ProcInv acc →
      ProcInv (rows.foldl (procStep cache batchSize cm) acc) := by
  induction rows with
  | nil => exact fun acc h => h
  | cons r rs ih =>
    exact fun acc h => ih _ (ProcInv_step cache batchSize cm h r)

theorem procStepCore_fields (cache : String → List InvoiceCandidate)
    (acc : ProcAcc) (row : TransactionRow) :
    (procStepCore cache acc row).invalid = acc.invalid ∧
    (procStepCore cache acc row).inserted = acc.inserted ∧
    (procStepCore cache acc row).buffer.length = acc.buffer.length + 1 ∧
    (procStepCore cache acc row).trace.length = acc.trace.length + 1 := by
  unfold procStepCore
  refine ⟨rfl, rfl, by simp, by simp⟩

theorem procStep_none (cache : String → List InvoiceCandidate)
    (batchSize : ℕ) (cm : ColMap) (acc : ProcAcc) (r : List String)
    (hp : parseRow r cm = none) :
    procStep cache batchSize cm acc r =
      { acc with invalid := acc.invalid + 1 } := by
  unfold procStep
  rw [hp]

theorem procStep_some_counts (cache : String → List InvoiceCandidate)
    (batchSize : ℕ) (cm : ColMap) (acc : ProcAcc) (r : List String)
    (row : TransactionRow) (hp : parseRow r cm = some row) :
    (procStep cache batchSize cm acc r).invalid = acc.invalid ∧
    (procStep cache batchSize cm acc r).inserted.length +
        (procStep cache batchSize cm acc r).buffer.length =
      acc.inserted.length + acc.buffer.length + 1 ∧
    (procStep cache batchSize cm acc r).trace.length =
      acc.trace.length + 1 := by
  obtain ⟨f1, f2, f3, f4⟩ := procStepCore_fields cache acc row
  unfold procStep
  rw [hp]
  dsimp only
  split_ifs with hb
  · refine ⟨by rw [flushAcc_invalid, f1], ?_, by rw [flushAcc_trace, f4]⟩
    rw [flushAcc_size, f2, f3]
    omega
  · refine ⟨f1, ?_, f4⟩
    rw [f2, f3]
    omega

theorem procFold_counts (cache : String → List InvoiceCandidate)
    (batchSize : ℕ) (cm : ColMap) (rows : List (List String)) :
    ∀ acc,
      (rows.foldl (procStep cache batchSize cm) acc).invalid =
        acc.invalid + (rows.filter (fun r => (parseRow r cm).isNone)).length ∧
      (rows.foldl (procStep cache batchSize cm) acc).inserted.length +
          (rows.foldl (procStep cache batchSize cm) acc).buffer.length =
        acc.inserted.length + acc.buffer.length +
          (rows.filter (fun r => (parseRow r cm).isSome)).length := by
  induction rows with
  | nil => intro acc; simp
  | cons r rs ih =>
    intro acc
    rw [List.foldl_cons, List.filter_cons, List.filter_cons]
    cases hp : parseRow r cm with
    | none =>
      rw [procStep_none cache batchSize cm acc r hp]
      obtain ⟨i1, i2⟩ := ih { acc with invalid := acc.invalid + 1 }
      refine ⟨?_, ?_⟩
      · rw [i1]
        simp
        try omega
      · rw [i2]
        simp
        try omega
    | some row =>
      obtain ⟨s1, s2, _⟩ :=
        procStep_some_counts cache batchSize cm acc r row hp
      obtain ⟨i1, i2⟩ := ih (procStep cache batchSize cm acc r)
      refine ⟨?_, ?_⟩
      · rw [i1, s1]
        simp
        try omega
      · rw [i2, s2]
        simp
        try omega

/-- C8. When `processCSVFromContent` succeeds, the batch total written
by `SetBatchTotal` equals the final `processedCount`, the processed
count equals the sum of the three status counters, the processed count
equals the number of successfully parsed rows, and rows whose date or
amount fails to parse are counted invalid and excluded from both. -/
theorem claim8_batch_totals (cache : String → List InvoiceCandidate)
    (batchSize : ℕ) (header : List String) (rows : List (List String))
    (out : ProcOut)
    (h : processCSVFromContent cache batchSize (header :: rows) = some out) :
    out.totalTransactions = out.acc.processed ∧
    out.acc.processed = out.acc.auto + out.acc.review + out.acc.unmatched ∧
    out.acc.processed =
      (rows.filter (fun r => (parseRow r (mkColMap header)).isSome)).length ∧
    out.acc.invalid =
      (rows.filter (fun r => (parseRow r (mkColMap header)).isNone)).length := by
  unfold processCSVFromContent at h
  dsimp only at h
  split_ifs at h with hmiss
  have hout : out =
      { acc := flushAcc (rows.foldl
          (procStep cache batchSize (mkColMap header)) initAcc),
        totalTransactions := (flushAcc (rows.foldl
          (procStep cache batchSize (mkColMap header)) initAcc)).processed } :=
    (Option.some.inj h).symm
  subst hout
  have hinv := ProcInv_flush (procFold_inv cache batchSize
    (mkColMap header) rows initAcc ProcInv_init)
  obtain ⟨hc1, hc2⟩ := procFold_counts cache batchSize
    (mkColMap header) rows initAcc
  have hbuf := flushAcc_buffer (rows.foldl
    (procStep cache batchSize (mkColMap header)) initAcc)
  have hsize := flushAcc_size (rows.foldl
    (procStep cache batchSize (mkColMap header)) initAcc)
  have hinvd := flushAcc_invalid (rows.foldl
    (procStep cache batchSize (mkColMap header)) initAcc)
  have hi1 : initAcc.invalid = 0 := rfl
  have hi2 : initAcc.inserted.length = 0 := rfl
  have hi3 : initAcc.buffer.length = 0 := rfl
  rw [hi1] at hc1
  rw [hi2, hi3] at hc2
  refine ⟨rfl, ?_, ?_, ?_⟩
  · rw [hinv.processed_eq, hinv.auto_eq, hinv.review_eq, hinv.unmatched_eq]
    exact (countStatus_three _ hinv.inserted_three).symm
  · rw [hinv.processed_eq]
    rw [hbuf] at hsize
    simp only [List.length_nil, Nat.add_zero] at hsize
    omega
  · rw [hinvd]
    omega

/-- C7. When `processCSVFromContent` succeeds: the matched invoice ids
of the trace (over auto_matched and needs_review decisions) contain no
duplicates; the reservation set is exactly those ids (so unmatched
decisions reserve nothing); and the id matched by any earlier row is
excluded from the candidate list of every later row. -/
theorem claim7_reservation (cache : String → List InvoiceCandidate)
    (batchSize : ℕ) (header : List String) (rows : List (List String))
    (out : ProcOut)
    (h : processCSVFromContent cache batchSize (header :: rows) = some out) :
    (matchedIds out.acc.trace).Nodup ∧
    out.acc.reserved = (matchedIds out.acc.trace).reverse ∧
    (∀ i j : Fin out.acc.trace.length, i < j →
      ∀ id, entryMatchedId (out.acc.trace.get i) = some id →
        id ∉ (out.acc.trace.get j).1.map (fun c => c.ID)) := by
  unfold processCSVFromContent at h
  dsimp only at h
  split_ifs at h with hmiss
  have hout : out =
      { acc := flushAcc (rows.foldl
          (procStep cache batchSize (mkColMap header)) initAcc),
        totalTransactions := (flushAcc (rows.foldl
          (procStep cache batchSize (mkColMap header)) initAcc)).processed } :=
    (Option.some.inj h).symm
  subst hout
  have hinv := ProcInv_flush (procFold_inv cache batchSize
    (mkColMap header) rows initAcc ProcInv_init)
  refine ⟨hinv.nodup, hinv.reserved_eq, ?_⟩
  intro i j hij id hid
  exact List.pairwise_iff_get.mp hinv.pairwise i j hij id hid

/-- Concrete cache for the processor witnesses: one invoice bucket at
amount 450.00. -/
def cacheW : String → List InvoiceCandidate :=
  fun a => if a = "450.00" then [invJohn] else []

/-- Concrete CSV header for the processor witnesses. -/
def headerW : List String :=
  ["transaction_date", "description", "amount"]

/-- Concrete CSV rows for the processor witnesses: two valid rows on
the same amount (the second finds the invoice reserved) and one row
with an unparseable date. -/
def rowsW : List (List String) :=
  [["2024-12-10", "JOHN SMITH", "450.00"],
   ["2024-12-10", "JOHN SMITH", "450.00"],
   ["bad-date", "JOHN SMITH", "450.00"]]

/-- The processor output of the witness run. -/
def procOutW : ProcOut :=
  (processCSVFromContent cacheW 500 (headerW :: rowsW)).getD
    { acc := initAcc, totalTransactions := 0 }

/-- C8, witness: the concrete run instantiates the counter theorem. -/
theorem claim8_witness :
    procOutW.totalTransactions = procOutW.acc.processed ∧
    procOutW.acc.processed =
      procOutW.acc.auto + procOutW.acc.review + procOutW.acc.unmatched ∧
    procOutW.acc.processed =
      (rowsW.filter (fun r => (parseRow r (mkColMap headerW)).isSome)).length ∧
    procOutW.acc.invalid =
      (rowsW.filter (fun r => (parseRow r (mkColMap headerW)).isNone)).length :=
  claim8_batch_totals cacheW 500 headerW rowsW procOutW (by decide)

/-- C7, witness: in the concrete run the invoice matched by the first
row is excluded from the second row's candidate list. -/
theorem claim7_witness :
    "I1" ∉ ((procOutW.acc.trace.get
      ⟨1, by decide⟩).1.map (fun c => c.ID)) :=
  (claim7_reservation cacheW 500 headerW rowsW procOutW (by decide)).2.2
    ⟨0, by decide⟩ ⟨1, by decide⟩ (by decide) "I1" (by decide)

/-! ## Job queue at-most-once (C9) -/

theorem claimSeq_no_reclaim {stale : ℕ} {j : String} {u0 : ℕ} {t : ℕ}
    {tbl : List JobRow} {evs : List (ℕ × Option String)}
    (hseq : ClaimSeq stale t tbl evs) :
    (∀ r ∈ tbl, r.id = j → r.status = "processing" ∧ u0 ≤ r.updatedAt) →
    ∀ k : Fin evs.length, (evs.get k).2 = some j →
      u0 + stale < (evs.get k).1 := by
  induction hseq with
  | nil t tbl => exact fun _ k => k.elim0
  | claimNone t now tbl rest hle hnone hrest ih =>
    intro hj k hk
    obtain ⟨kv, hkv⟩ := k
    cases kv with
    | zero => simp at hk
    | succ kv2 =>
      have := ih hj ⟨kv2, by simpa using hkv⟩ (by simpa using hk)
      simpa using this
  | claimSome t now tbl j2 r rest hle hmem hid helig hmin hrest ih =>
    intro hj k hk
    obtain ⟨kv, hkv⟩ := k
    cases kv with
    | zero =>
      have hj2 : j2 = j := by simpa using hk
      subst hj2
      obtain ⟨hst, hu⟩ := hj r hmem hid
      have hlt : r.updatedAt + stale < now := by
        unfold jobEligible at helig
        rw [hst] at helig
        simpa using helig
      show u0 + stale < now
      omega
    | succ kv2 =>
      have hnext : ∀ r2 ∈ claimUpdate now j2 tbl, r2.id = j →
          r2.status = "processing" ∧ u0 ≤ r2.updatedAt := by
        intro r2 hr2 hrid
        unfold claimUpdate at hr2
        rcases List.mem_map.mp hr2 with ⟨r0, hr0, heq⟩
        by_cases hcase : r0.id = j2
        · rw [if_pos hcase] at heq
          have hj2 : j2 = j := by
            rw [← heq] at hrid
            exact hcase ▸ hrid
          subst hj2
          obtain ⟨hst, hu⟩ := hj r hmem hid
          have hlt : r.updatedAt + stale < now := by
            unfold jobEligible at helig
            rw [hst] at helig
            simpa using helig
          rw [← heq]
          refine ⟨rfl, ?_⟩
          show u0 ≤ now
          omega
        · rw [if_neg hcase] at heq
          rw [← heq]
          rw [← heq] at hrid
          exact hj r0 hr0 hrid
      have := ih hnext ⟨kv2, by simpa using hkv⟩ (by simpa using hk)
      simpa using this

/-- C9. In any serialized trace of `claimJob` transactions (the
`FOR UPDATE SKIP LOCKED` row lock makes overlapping claim transactions
serialize: each atomically selects an eligible row of minimal
`created_at`, marks it `processing`, increments `attempts` and stamps
`updated_at` before any other claim can read it), two claims can return
the same job id only when the later one runs more than the stale
threshold after the earlier one. Hence among concurrent claim calls —
all within one stale-threshold window — at most one returns a given job
in `processing`. -/
theorem claim9_at_most_once_claim (stale t0 : ℕ) (tbl : List JobRow)
    (evs : List (ℕ × Option String)) (h : ClaimSeq stale t0 tbl evs) :
    ∀ i k : Fin evs.length, i < k → ∀ j,
      (evs.get i).2 = some j → (evs.get k).2 = some j →
      (evs.get i).1 + stale < (evs.get k).1 := by
  induction h with
  | nil t tbl => exact fun i => i.elim0
  | claimNone t now tbl rest hle hnone hrest ih =>
    intro i k hik j hi hk
    obtain ⟨iv, hiv⟩ := i
    obtain ⟨kv, hkv⟩ := k
    cases iv with
    | zero => simp at hi
    | succ iv2 =>
      cases kv with
      | zero => exact absurd hik (by simp [Fin.lt_def])
      | succ kv2 =>
        have := ih ⟨iv2, by simpa using hiv⟩ ⟨kv2, by simpa using hkv⟩
          (by simpa [Fin.lt_def] using hik) j (by simpa using hi)
          (by simpa using hk)
        simpa using this
  | claimSome t now tbl j2 r rest hle hmem hid helig hmin hrest ih =>
    intro i k hik j hi hk
    obtain ⟨iv, hiv⟩ := i
    obtain ⟨kv, hkv⟩ := k
    cases iv with
    | zero =>
      have hj2 : j2 = j := by simpa using hi
      subst hj2
      cases kv with
      | zero => exact absurd hik (by simp [Fin.lt_def])
      | succ kv2 =>
        have hnext : ∀ r2 ∈ claimUpdate now j2 tbl, r2.id = j2 →
            r2.status = "processing" ∧ now ≤ r2.updatedAt := by
          intro r2 hr2 hrid
          unfold claimUpdate at hr2
          rcases List.mem_map.mp hr2 with ⟨r0, hr0, heq⟩
          by_cases hcase : r0.id = j2
          · rw [if_pos hcase] at heq
            rw [← heq]
            exact ⟨rfl, le_refl now⟩
          · rw [if_neg hcase] at heq
            rw [← heq] at hrid
            exact absurd hrid hcase
        have := claimSeq_no_reclaim hrest hnext
          ⟨kv2, by simpa using hkv⟩ (by simpa using hk)
        simpa using this
    | succ iv2 =>
      cases kv with
      | zero => exact absurd hik (by simp [Fin.lt_def])
      | succ kv2 =>
        have := ih ⟨iv2, by simpa using hiv⟩ ⟨kv2, by simpa using hkv⟩
          (by simpa [Fin.lt_def] using hik) j (by simpa using hi)
          (by simpa using hk)
        simpa using this

/-- Jobs table fixture for the C9 witness: one queued job. -/
def jobTblW : List JobRow :=
  [{ id := "job1", createdAt := 0, status := "queued", attempts := 0,
     updatedAt := 0 }]

/-- Event fixture for the C9 witness: the job is claimed at time 5 and
again at time 16 (after the 10-unit stale threshold has passed). -/
def jobEvsW : List (ℕ × Option String) :=
  [(5, some "job1"), (16, some "job1")]

/-- C9, witness: in the concrete two-claim trace the second claim of
the same job is more than the stale threshold after the first. -/
theorem claim9_witness :
    (jobEvsW.get ⟨0, by decide⟩).1 + 10 < (jobEvsW.get ⟨1, by decide⟩).1 := by
  have hseq : ClaimSeq 10 0 jobTblW jobEvsW := by
    refine ClaimSeq.claimSome 0 5 jobTblW "job1"
      { id := "job1", createdAt := 0, status := "queued", attempts := 0,
        updatedAt := 0 }
      [(16, some "job1")] (by omega) (by decide) (by decide) (by decide)
      (by decide) ?_
    refine ClaimSeq.claimSome 5 16 (claimUpdate 5 "job1" jobTblW) "job1"
      { id := "job1", createdAt := 0, status := "processing", attempts := 1,
        updatedAt := 5 }
      [] (by omega) (by decide) (by decide) (by decide) (by decide) ?_
    exact ClaimSeq.nil 16 _
  exact claim9_at_most_once_claim 10 0 jobTblW jobEvsW hseq
    ⟨0, by decide⟩ ⟨1, by decide⟩ (by decide) "job1" (by decide) (by decide)

end Recon

